import Mathlib

/-!
Verification development for the price-tag OCR backend (`backend/src/index.js`).

Strings are embedded as `List Char`.  Each definition mirrors one JavaScript
function of the source; JavaScript `Number` values are embedded as `ℚ`
(every numeric quantity appearing here is exactly representable and the
comparisons performed by the code are order-faithful under this embedding).
-/

namespace Euro

/-- Character class kept by `normalizeNumberToken`'s stripping step
(`t.replace(/[^0-9.,]/g, "")`); the earlier `trim()` and `replace(/\s/g,"")`
only remove characters that this filter removes as well, so a single filter
models all three. -/
def isKeep (c : Char) : Bool := c.isDigit || c = '.' || c = ','

/-- The stripped token: digits and separators only. -/
def stripTok (s : List Char) : List Char := s.filter isKeep

/-- JS `String.prototype.lastIndexOf` restricted to single characters:
index of the last occurrence, `-1` if absent. -/
def lastIndexOf (l : List Char) (c : Char) : Int :=
  l.enum.foldl (fun acc p => if p.2 = c then (p.1 : Int) else acc) (-1)

/-- Replace the first occurrence of `c` by `r` (identity when `c` is absent). -/
def replaceFirst (c r : Char) : List Char → List Char
  | [] => []
  | x :: xs => if x = c then r :: xs else x :: replaceFirst c r xs

/-- Replace the last occurrence of `c` by `r`: models the JS idiom
`t.slice(0, idx) + "." + t.slice(idx + 1)` at `idx = t.lastIndexOf(c)`,
including the `idx !== -1` guard (identity when `c` is absent). -/
def replaceLast (l : List Char) (c r : Char) : List Char :=
  (replaceFirst c r l.reverse).reverse

/-- JS `String.prototype.split` on a single-character separator. -/
def splitOnChar (sep : Char) : List Char → List (List Char)
  | [] => [[]]
  | c :: cs =>
    let r := splitOnChar sep cs
    if c = sep then [] :: r
    else
      match r with
      | [] => [[c]]
      | p :: ps => (c :: p) :: ps

/-- Models lines 50-54 of the source: `const parts = t.split(".");
if (parts.length > 2) { const dec = parts.pop(); t = parts.join("") + "." + dec; }` -/
def collapseDots (t : List Char) : List Char :=
  if (splitOnChar '.' t).length > 2 then
    (splitOnChar '.' t).dropLast.flatten ++ '.' :: (splitOnChar '.' t).getLastD []
  else t

/-- The test `/^0+\d/.test(t)`: with backtracking this holds exactly when the
string starts with `'0'` followed by a digit. -/
def startsZeroDigit : List Char → Bool
  | c0 :: c1 :: _ => c0 = '0' && c1.isDigit
  | _ => false

/-- The test `/^0\./.test(t)`. -/
def startsZeroDot : List Char → Bool
  | c0 :: c1 :: _ => c0 = '0' && c1 = '.'
  | _ => false

/-- Line 40: `const decSep = lastDot > lastComma ? "." : ","`. -/
def decSepOf (t : List Char) : Char :=
  if lastIndexOf t ',' < lastIndexOf t '.' then '.' else ','

/-- Line 41: `const thouSep = decSep === "." ? "," : "."`. -/
def thouSepOf (t : List Char) : Char :=
  if decSepOf t = '.' then ',' else '.'

/-- Lines 37-55, the separator-resolution step.  When both separator types
occur, the thousands separator is removed entirely
(`t.split(thouSep).join("")`, i.e. a filter) and the last occurrence of the
decimal separator is replaced by `'.'`; otherwise every comma becomes a dot
and all dots but the last are collapsed away. -/
def normBranch (t : List Char) : List Char :=
  if '.' ∈ t ∧ ',' ∈ t then
    replaceLast (t.filter (fun x => x ≠ thouSepOf t)) (decSepOf t) '.'
  else
    collapseDots (t.map (fun x => if x = ',' then '.' else x))

/-- Lines 57-60: strip leading zeros when `/^0+\d/` matches and `/^0\./`
does not. -/
def stripZeros (t2 : List Char) : List Char :=
  if startsZeroDigit t2 && !startsZeroDot t2 then t2.dropWhile (fun x => x = '0') else t2

/-- `normalizeNumberToken` of `backend/src/index.js` (lines 24-63). -/
def normalizeNumberToken (token : List Char) : List Char :=
  if stripTok token = [] then [] else stripZeros (normBranch (stripTok token))

/-! ### Candidate extraction (`extractAmounts`, lines 65-98) -/

/-- The character class `[0-9.,\s]` of the token regex (`\s` taken over the
ASCII whitespace that can occur in the recognized text). -/
def isTokChar (c : Char) : Bool :=
  c.isDigit || c = '.' || c = ',' || c = ' ' || c = '\t' || c = '\n' || c = '\r'

/-- Whether the character at position `j` (if any) is a digit. -/
def digitAt (cs : List Char) (j : Nat) : Bool :=
  match cs.drop j with
  | c :: _ => c.isDigit
  | [] => false

/-- Matching `[0-9][0-9.,\s]{0,15}[0-9]` at a position whose head digit has
already been consumed: the backtracking engine takes the largest `j ≤ 15`
such that the next `j` characters are in the class and the character after
them is a digit. -/
def findK (cs : List Char) : Option Nat :=
  (List.range 16).reverse.find? (fun j => (cs.take j).all isTokChar && digitAt cs j)

/-- One left-to-right scan of `raw.match(/[0-9][0-9.,\s]{0,15}[0-9]/g)`:
at a digit, emit the maximal match and resume after it; otherwise advance one
character.  The fuel starts at the text length and cannot run out, since every
step consumes at least one character. -/
def findTokensFuel : Nat → List Char → List (List Char)
  | 0, _ => []
  | _, [] => []
  | fuel + 1, c :: cs =>
    if c.isDigit then
      match findK cs with
      | some j => (c :: cs.take (j + 1)) :: findTokensFuel fuel (cs.drop (j + 1))
      | none => findTokensFuel fuel cs
    else findTokensFuel fuel cs

/-- All non-overlapping maximal matches of the token pattern. -/
def findTokens (s : List Char) : List (List Char) := findTokensFuel s.length s

/-- Numeric value of a digit string. -/
def digitsVal (ds : List Char) : Nat :=
  ds.foldl (fun a c => a * 10 + (c.toNat - '0'.toNat)) 0

/-- JS `Number.parseFloat` restricted to the character set `[0-9.,]` that
normalized tokens consist of: parse the longest prefix of the form
`digits`, `digits.digits?` or `.digits`; `none` when no digit is parsed
(the `NaN` case, caught by the `Number.isFinite` guard). -/
def parseFloatQ (s : List Char) : Option ℚ :=
  let ip := s.takeWhile Char.isDigit
  match s.drop ip.length with
  | '.' :: r2 =>
    let fp := r2.takeWhile Char.isDigit
    if ip = [] ∧ fp = [] then none
    else some ((digitsVal ip : ℚ) + (digitsVal fp : ℚ) / 10 ^ fp.length)
  | _ => if ip = [] then none else some (digitsVal ip)

/-- The dedup key `val.toFixed(2)`: the value rounded to two decimals
(`toFixed` rounds ties away from zero, here all values are positive). -/
def keyOf (v : ℚ) : Int := ⌊v * 100 + 1 / 2⌋

/-- The test `/\.\d{1,2}$/.test(norm)`: the string ends in a dot followed by
exactly one or two digits. -/
def hasDecimalsB (s : List Char) : Bool :=
  match s.reverse with
  | d1 :: '.' :: _ => d1.isDigit
  | d1 :: d2 :: '.' :: _ => d1.isDigit && d2.isDigit
  | _ => false

/-- The score heuristic of lines 87-91. -/
def scoreOf (norm : List Char) (val : ℚ) : ℚ :=
  (if hasDecimalsB norm then 2 else 0) +
    (if 1 / 5 ≤ val ∧ val ≤ 5000 then 2 else 0) +
    ((min norm.length 10 : Nat) : ℚ) / 10

/-- An extracted candidate `{value, normalized, score}`. -/
structure Cand where
  value : ℚ
  normalized : List Char
  score : ℚ
deriving DecidableEq

/-- The body of the `for` loop of `extractAmounts` for one token: normalize,
parse, and range-check; `none` exactly when the loop `continue`s before the
dedup test. -/
def candOfTok (tok : List Char) : Option Cand :=
  if normalizeNumberToken tok = [] then none
  else
    match parseFloatQ (normalizeNumberToken tok) with
    | none => none
    | some val =>
      if val ≤ 0 ∨ 100000 ≤ val then none
      else some ⟨val, normalizeNumberToken tok, scoreOf (normalizeNumberToken tok) val⟩

/-- The candidates that pass every per-token filter, in token order and
without deduplication. -/
def validCands (toks : List (List Char)) : List Cand :=
  toks.filterMap candOfTok

/-- The `for` loop with its `seen` set of `toFixed(2)` keys. -/
def buildLoop : List (List Char) → List Int → List Cand
  | [], _ => []
  | tok :: toks, seen =>
    match candOfTok tok with
    | none => buildLoop toks seen
    | some c =>
      if keyOf c.value ∈ seen then buildLoop toks seen
      else c :: buildLoop toks (keyOf c.value :: seen)

/-- The ordering realized by the comparator
`(a, b) => b.score - a.score || b.value - a.value`: `a` sorts no later than
`b` when its score is larger, or the scores tie and its value is at least as
large. -/
def rle (a b : Cand) : Prop :=
  b.score < a.score ∨ (a.score = b.score ∧ b.value ≤ a.value)

instance : DecidableRel rle := fun a b =>
  inferInstanceAs (Decidable (b.score < a.score ∨ (a.score = b.score ∧ b.value ≤ a.value)))

instance : IsTotal Cand rle where
  total a b := by
    unfold rle
    rcases lt_trichotomy a.score b.score with h | h | h
    · exact Or.inr (Or.inl h)
    · rcases le_total a.value b.value with hv | hv
      · exact Or.inr (Or.inr ⟨h.symm, hv⟩)
      · exact Or.inl (Or.inr ⟨h, hv⟩)
    · exact Or.inl (Or.inl h)

instance : IsTrans Cand rle where
  trans a b c hab hbc := by
    unfold rle at *
    rcases hab with h1 | ⟨h1, h1v⟩ <;> rcases hbc with h2 | ⟨h2, h2v⟩
    · exact Or.inl (h2.trans h1)
    · exact Or.inl (h2 ▸ h1)
    · exact Or.inl (h1 ▸ h2)
    · exact Or.inr ⟨h1.trans h2, h2v.trans h1v⟩

/-- `extractAmounts` of `backend/src/index.js` (lines 65-98).  JS
`Array.prototype.sort` is a stable sort, and the output of a stable sort is
uniquely determined by the comparator and the input order, so the stable
`List.insertionSort` realizes it exactly. -/
def extractAmounts (text : List Char) : List Cand :=
  (List.insertionSort rle (buildLoop (findTokens text) [])).take 8

/-! ### The `GET /api/convert` handler (lines 133-145) -/

/-- The fixed exchange rate `RATE = 1.95583` (BGN per 1 EUR). -/
def RATE : ℚ := 195583 / 100000

/-- `Number.EPSILON`. -/
def EPS : ℚ := 1 / 2 ^ 52

/-- `round2(n) = Math.round((n + Number.EPSILON) * 100) / 100`;
JS `Math.round` rounds half toward positive infinity, i.e. `⌊x + 1/2⌋`. -/
def round2 (n : ℚ) : ℚ := ((⌊(n + EPS) * 100 + 1 / 2⌋ : Int) : ℚ) / 100

/-- The success payload `{rate, amount, from, bgn, eur}`. -/
structure ConvOk where
  rate : ℚ
  amount : ℚ
  fromCur : List Char
  bgn : ℚ
  eur : ℚ
deriving DecidableEq

/-- The two `400` error responses of the handler. -/
inductive ConvErr where
  | invalidAmount
  | invalidFrom
deriving DecidableEq

/-- `String(req.query.from || "BGN").toUpperCase()`: an absent parameter and
the empty string are both falsy and default to `"BGN"`; the result is
upper-cased. -/
def normFrom (fromQ : Option (List Char)) : List Char :=
  (match fromQ with
    | none => "BGN".toList
    | some [] => "BGN".toList
    | some s => s).map Char.toUpper

/-- The `GET /api/convert` handler.  `amountQ` is `Number(req.query.amount)`
embedded as `none` when that value is `NaN` or infinite (the values rejected
by `Number.isFinite`) and `some q` otherwise; `fromQ` is the raw `from`
query parameter. -/
def convertHandler (amountQ : Option ℚ) (fromQ : Option (List Char)) :
    Except ConvErr ConvOk :=
  let f := normFrom fromQ
  match amountQ with
  | none => Except.error ConvErr.invalidAmount
  | some amount =>
    if f ≠ "BGN".toList ∧ f ≠ "EUR".toList then Except.error ConvErr.invalidFrom
    else
      let eur := if f = "BGN".toList then amount / RATE else amount
      let bgn := if f = "EUR".toList then amount * RATE else amount
      Except.ok ⟨RATE, amount, f, round2 bgn, round2 eur⟩

/-- Whether the handler answered with a `400` error object. -/
def isErr (r : Except ConvErr ConvOk) : Bool :=
  match r with
  | Except.error _ => true
  | Except.ok _ => false

/-! ### The OCR worker singleton and its queue (lines 100-126)

The JavaScript runs on a single-threaded event loop, so each call to
`getWorker` / `runOcr` executes its synchronous body atomically and the
chained promise `queue` serializes the recognition callbacks; the state
below records the settled outcome of `workerPromise` and of `queue`.
An `Except.error` models a rejected promise. -/

deriving instance DecidableEq for Except

/-- Process-wide state: line 101 `let workerPromise = null` and line 102
`let queue = Promise.resolve()`, plus two observers: how many times the
initializer ran, and which recognition jobs actually executed. -/
structure EngineState where
  workerPromise : Option (Except String Unit)
  initCount : Nat
  queue : Except String Unit
  executed : List (Except String Nat)
deriving DecidableEq

/-- The state at process start. -/
def initState : EngineState := ⟨none, 0, Except.ok (), []⟩

/-- `getWorker` (lines 104-116): memoize the initialization outcome on first
call, return the memoized promise afterwards.  `init` is the outcome that
running the initializer would produce at this moment. -/
def getWorkerM (init : Except String Unit) (s : EngineState) :
    EngineState × Except String Unit :=
  match s.workerPromise with
  | some p => (s, p)
  | none => (⟨some init, s.initCount + 1, s.queue, s.executed⟩, init)

/-- `runOcr` (lines 118-126): await the worker, then chain
`queue = queue.then(async () => worker.recognize(buffer))` and return the new
`queue`.  `job` is the outcome the `recognize` call would produce.  When the
stored `queue` promise is rejected, `.then` skips its callback and the
rejection propagates to the new `queue`; the job is recorded in `executed`
exactly when its `recognize` call runs. -/
def runOcrM (init : Except String Unit) (job : Except String Nat)
    (s : EngineState) : EngineState × Except String Nat :=
  match getWorkerM init s with
  | (s1, Except.error e) => (s1, Except.error e)
  | (s1, Except.ok _) =>
    match s1.queue with
    | Except.error e => (⟨s1.workerPromise, s1.initCount, Except.error e, s1.executed⟩, Except.error e)
    | Except.ok _ =>
      (⟨s1.workerPromise, s1.initCount, job.map (fun _ => ()), s1.executed ++ [job]⟩, job)

/-- Submit a list of recognition jobs through `runOcr` in order, collecting
each caller's observed outcome. -/
def runAll (init : Except String Unit) (jobs : List (Except String Nat))
    (s : EngineState) : EngineState × List (Except String Nat) :=
  match jobs with
  | [] => (s, [])
  | j :: js =>
    let p := runOcrM init j s
    let q := runAll init js p.1
    (q.1, p.2 :: q.2)

/-- `n` successive `getWorker` calls, collecting each caller's outcome. -/
def acquireAll (init : Except String Unit) (n : Nat) (s : EngineState) :
    EngineState × List (Except String Unit) :=
  match n with
  | 0 => (s, [])
  | n + 1 =>
    let p := getWorkerM init s
    let q := acquireAll init n p.1
    (q.1, p.2 :: q.2)

/-! ### Helper lemmas for the engine model -/

/-- After a successful initialization, a run of successful jobs executes each
job in order, each caller observing its own result, without touching the
worker or the initialization count. -/
theorem runAll_ok_aux (ids : List Nat) (ic : Nat) (ex : List (Except String Nat)) :
    runAll (Except.ok ()) (ids.map Except.ok) ⟨some (Except.ok ()), ic, Except.ok (), ex⟩ =
      (⟨some (Except.ok ()), ic, Except.ok (), ex ++ ids.map Except.ok⟩, ids.map Except.ok) := by
  induction ids generalizing ex with
  | nil => simp [runAll]
  | cons i is ih =>
    simp only [List.map_cons, runAll, runOcrM, getWorkerM, Except.map]
    rw [ih (ex ++ [Except.ok i])]
    simp

/-- Once a promise is memoized, every later `getWorker` call returns it and
leaves the state unchanged. -/
theorem acquireAll_memo (b p : Except String Unit) (n ic : Nat)
    (q : Except String Unit) (ex : List (Except String Nat)) :
    acquireAll b n ⟨some p, ic, q, ex⟩ = (⟨some p, ic, q, ex⟩, List.replicate n p) := by
  induction n with
  | zero => rfl
  | succ n ih => simp [acquireAll, getWorkerM, ih, List.replicate_succ]

/-! ### Claim theorems: engine manager and queue -/

/-- Claim C1 (code bug, behaviour at the failing input): after a successful
initialization, submit two jobs where the first `recognize` rejects with
"boom" and the second would succeed with result `7`.  The chained promise
`queue = queue.then(cb)` has no rejection handler, so the first rejection
poisons the chain: the second caller receives the first job's error, the
second `recognize` never executes (`executed` holds only the first job), and
`queue` remains rejected — contradicting the claim that only the failing
job's caller sees the failure and later jobs still run. -/
theorem C1_code_behavior :
    runAll (Except.ok ()) [Except.error "boom", Except.ok 7] initState =
      (⟨some (Except.ok ()), 1, Except.error "boom", [Except.error "boom"]⟩,
        [Except.error "boom", Except.error "boom"]) := by decide

/-- Claim C9 (counterexample): two jobs are submitted but only one execution
of the recognition step happens, because the first job's failure poisons the
promise chain; so "exactly N sequential executions" fails for N = 2. -/
theorem C9_cex :
    (runAll (Except.ok ()) [Except.error "bad", Except.ok 1] initState).1.executed.length = 1 ∧
    ([Except.error "bad", Except.ok 1] : List (Except String Nat)).length = 2 := by decide

/-- Claim C9 (amended): provided initialization and every job's recognition
step succeed, submitting N jobs yields exactly N executions, in submission
order, each caller observing its own job's result; and however many
`getWorker` calls occur, the initializer runs exactly once (for at least one
call) and every caller receives the same memoized outcome. -/
theorem C9_sequential (ids : List Nat) (n : Nat) (b : Except String Unit) :
    (runAll (Except.ok ()) (ids.map Except.ok) initState).1.executed = ids.map Except.ok ∧
    (runAll (Except.ok ()) (ids.map Except.ok) initState).2 = ids.map Except.ok ∧
    (runAll (Except.ok ()) (ids.map Except.ok) initState).1.initCount = min ids.length 1 ∧
    (acquireAll b n initState).2 = List.replicate n b ∧
    (acquireAll b n initState).1.initCount = min n 1 := by
  constructor
  · cases ids with
    | nil => rfl
    | cons i is =>
      have h1 : runOcrM (Except.ok ()) (Except.ok i) initState =
          (⟨some (Except.ok ()), 1, Except.ok (), [Except.ok i]⟩, Except.ok i) := rfl
      simp only [List.map_cons, runAll, h1, runAll_ok_aux is 1 [Except.ok i]]
      simp
  constructor
  · cases ids with
    | nil => rfl
    | cons i is =>
      have h1 : runOcrM (Except.ok ()) (Except.ok i) initState =
          (⟨some (Except.ok ()), 1, Except.ok (), [Except.ok i]⟩, Except.ok i) := rfl
      simp only [List.map_cons, runAll, h1, runAll_ok_aux is 1 [Except.ok i]]
  constructor
  · cases ids with
    | nil => rfl
    | cons i is =>
      have h1 : runOcrM (Except.ok ()) (Except.ok i) initState =
          (⟨some (Except.ok ()), 1, Except.ok (), [Except.ok i]⟩, Except.ok i) := rfl
      simp only [List.map_cons, runAll, h1, runAll_ok_aux is 1 [Except.ok i]]
      simp
  constructor
  · cases n with
    | zero => rfl
    | succ n =>
      have h1 : getWorkerM b initState = (⟨some b, 1, Except.ok (), []⟩, b) := rfl
      simp only [acquireAll, h1, acquireAll_memo b b n 1]
      simp [List.replicate_succ]
  · cases n with
    | zero => rfl
    | succ n =>
      have h1 : getWorkerM b initState = (⟨some b, 1, Except.ok (), []⟩, b) := rfl
      simp only [acquireAll, h1, acquireAll_memo b b n 1]
      simp

/-- Claim C6 (counterexample): initialization fails with "init failed"; at
the next `getWorker` call the initializer would succeed, yet the call
returns the memoized old failure and does not re-run initialization (the
state, including `initCount = 1`, is unchanged) — the code never retries. -/
theorem C6_cex :
    getWorkerM (Except.ok ()) ((getWorkerM (Except.error "init failed") initState).1) =
      ((getWorkerM (Except.error "init failed") initState).1, Except.error "init failed") ∧
    ((getWorkerM (Except.error "init failed") initState).1).initCount = 1 := by decide

/-- Claim C6 (amended): once a failed initialization outcome is memoized in
`workerPromise`, every later `getWorker` call — whatever a fresh
initialization would now produce — returns that same failure and leaves the
state unchanged, so initialization is never retried. -/
theorem C6_memoized_failure (e : String) (b : Except String Unit) (s : EngineState)
    (h : s.workerPromise = some (Except.error e)) :
    getWorkerM b s = (s, Except.error e) := by
  unfold getWorkerM
  rw [h]

/-- Witness for `C6_memoized_failure` at a concrete failed state. -/
theorem C6_witness :
    getWorkerM (Except.ok ()) ⟨some (Except.error "boom"), 1, Except.ok (), []⟩ =
      (⟨some (Except.error "boom"), 1, Except.ok (), []⟩, Except.error "boom") :=
  C6_memoized_failure "boom" (Except.ok ())
    ⟨some (Except.error "boom"), 1, Except.ok (), []⟩ rfl

/-! ### Claim theorems: the convert endpoint -/

/-- Claim C7 (counterexample): with `amount=10&from=bgn` the handler answers
`200` although the raw `from` parameter is neither `"BGN"` nor `"EUR"` — the
code upper-cases (and defaults) `from` before the check, so the claimed
"400 iff amount not finite or from ∉ {BGN, EUR}" equivalence fails. -/
theorem C7_cex :
    isErr (convertHandler (some 10) (some "bgn".toList)) = false ∧
    "bgn".toList ≠ "BGN".toList ∧ "bgn".toList ≠ "EUR".toList := by decide

/-- Claim C7 (amended): the handler answers `400` if and only if the amount
is not a finite number, or the `from` parameter — after defaulting an absent
or empty value to `"BGN"` and upper-casing — is neither `"BGN"` nor `"EUR"`;
otherwise it answers `200 {rate, amount, from, bgn, eur}` with both derived
amounts rounded to two decimals; in particular for BGN input
`eur = round2(amount / 1.95583)`. -/
theorem C7_convert (aq : Option ℚ) (fq : Option (List Char)) :
    (isErr (convertHandler aq fq) = true ↔
      aq = none ∨ (normFrom fq ≠ "BGN".toList ∧ normFrom fq ≠ "EUR".toList)) ∧
    (∀ a : ℚ, aq = some a → normFrom fq = "BGN".toList →
      convertHandler aq fq =
        Except.ok ⟨RATE, a, "BGN".toList, round2 a, round2 (a / RATE)⟩) ∧
    (∀ a : ℚ, aq = some a → normFrom fq = "EUR".toList →
      convertHandler aq fq =
        Except.ok ⟨RATE, a, "EUR".toList, round2 (a * RATE), round2 a⟩) := by
  refine ⟨?_, ?_, ?_⟩
  · cases aq with
    | none => simp [convertHandler, isErr]
    | some a =>
      simp only [convertHandler]
      split
      next h =>
        simp [isErr]
        simpa using h
      next h =>
        simp only [isErr]
        simp
        tauto
  · intro a ha hf
    subst ha
    simp [convertHandler, hf]
  · intro a ha hf
    subst ha
    have hne : "EUR".toList ≠ "BGN".toList := by decide
    simp [convertHandler, hf, hne]

/-- Witness for `C7_convert`: `amount=10&from=BGN` answers `200` with
`eur = round2(10 / RATE)`. -/
theorem C7_witness :
    convertHandler (some 10) (some "BGN".toList) =
      Except.ok ⟨RATE, 10, "BGN".toList, round2 10, round2 (10 / RATE)⟩ :=
  (C7_convert (some 10) (some "BGN".toList)).2.1 10 rfl (by decide)

/-- Claim C10: the `from` parameter is matched case-insensitively and
defaults to `"BGN"` when absent: for every finite amount, omitting `from`,
or passing it in lower case, yields the same `200` response as the
corresponding upper-case code. -/
theorem C10_case_insensitive (a : ℚ) :
    convertHandler (some a) none =
      Except.ok ⟨RATE, a, "BGN".toList, round2 a, round2 (a / RATE)⟩ ∧
    convertHandler (some a) (some "bgn".toList) =
      Except.ok ⟨RATE, a, "BGN".toList, round2 a, round2 (a / RATE)⟩ ∧
    convertHandler (some a) (some "eur".toList) =
      Except.ok ⟨RATE, a, "EUR".toList, round2 (a * RATE), round2 a⟩ := by
  refine ⟨rfl, rfl, rfl⟩

/-! ### Structural lemmas about the normalizer -/

/-- A map that fixes every element of a list is the identity on it. -/
theorem map_noop {f : Char → Char} : ∀ l : List Char, (∀ a ∈ l, f a = a) → l.map f = l
  | [], _ => rfl
  | a :: l, h => by
    simp only [List.map_cons]
    rw [h a (List.mem_cons_self a l), map_noop l (fun b hb => h b (List.mem_cons_of_mem a hb))]

/-- Characters of `replaceFirst c r l` come from `l` or are the replacement. -/
theorem mem_replaceFirst {x c r : Char} :
    ∀ {l : List Char}, x ∈ replaceFirst c r l → x ∈ l ∨ x = r := by
  intro l
  induction l with
  | nil => intro h; simp [replaceFirst] at h
  | cons y ys ih =>
    intro h
    unfold replaceFirst at h
    by_cases hy : y = c
    · rw [if_pos hy] at h
      rcases List.mem_cons.mp h with h | h
      · exact Or.inr h
      · exact Or.inl (List.mem_cons_of_mem y h)
    · rw [if_neg hy] at h
      rcases List.mem_cons.mp h with h | h
      · exact Or.inl (h ▸ List.mem_cons_self y ys)
      · rcases ih h with h | h
        · exact Or.inl (List.mem_cons_of_mem y h)
        · exact Or.inr h

/-- Characters of `replaceLast l c r` come from `l` or are the replacement. -/
theorem mem_replaceLast {x c r : Char} {l : List Char} (h : x ∈ replaceLast l c r) :
    x ∈ l ∨ x = r := by
  unfold replaceLast at h
  rw [List.mem_reverse] at h
  rcases mem_replaceFirst h with h | h
  · exact Or.inl (List.mem_reverse.mp h)
  · exact Or.inr h

/-- `splitOnChar` never returns the empty list of segments. -/
theorem splitOnChar_ne_nil (sep : Char) : ∀ l : List Char, splitOnChar sep l ≠ []
  | [] => by simp [splitOnChar]
  | c :: cs => by
    unfold splitOnChar
    by_cases hc : c = sep
    · simp [hc]
    · rw [if_neg hc]
      cases hr : splitOnChar sep cs with
      | nil => simp
      | cons p ps => simp

/-- The number of segments is the separator count plus one. -/
theorem splitOnChar_length (sep : Char) :
    ∀ l : List Char, (splitOnChar sep l).length = l.count sep + 1
  | [] => by simp [splitOnChar]
  | c :: cs => by
    unfold splitOnChar
    by_cases hc : c = sep
    · simp only [if_pos hc, List.length_cons, splitOnChar_length sep cs]
      rw [List.count_cons]
      simp [hc]
    · rw [if_neg hc]
      cases hr : splitOnChar sep cs with
      | nil => exact absurd hr (splitOnChar_ne_nil sep cs)
      | cons p ps =>
        have := splitOnChar_length sep cs
        rw [hr] at this
        simp only [List.length_cons] at this ⊢
        rw [List.count_cons]
        simp [hc, this]

/-- Every character of a segment belongs to the original list and differs
from the separator. -/
theorem mem_splitOnChar (sep : Char) :
    ∀ (l : List Char), ∀ p ∈ splitOnChar sep l, ∀ x ∈ p, x ∈ l ∧ x ≠ sep := by
  intro l
  induction l with
  | nil =>
    intro p hp x hx
    simp [splitOnChar] at hp
    subst hp
    simp at hx
  | cons c cs ih =>
    intro p hp x hx
    unfold splitOnChar at hp
    by_cases hc : c = sep
    · rw [if_pos hc] at hp
      rcases List.mem_cons.mp hp with hp | hp
      · subst hp; simp at hx
      · rcases ih p hp x hx with ⟨h1, h2⟩
        exact ⟨List.mem_cons_of_mem c h1, h2⟩
    · rw [if_neg hc] at hp
      cases hr : splitOnChar sep cs with
      | nil => exact absurd hr (splitOnChar_ne_nil sep cs)
      | cons q qs =>
        rw [hr] at hp
        rcases List.mem_cons.mp hp with hp | hp
        · subst hp
          rcases List.mem_cons.mp hx with hx | hx
          · subst hx; exact ⟨List.mem_cons_self x cs, hc⟩
          · rcases ih q (hr ▸ List.mem_cons_self q qs) x hx with ⟨h1, h2⟩
            exact ⟨List.mem_cons_of_mem c h1, h2⟩
        · rcases ih p (hr ▸ List.mem_cons_of_mem q hp) x hx with ⟨h1, h2⟩
          exact ⟨List.mem_cons_of_mem c h1, h2⟩

/-- The last segment (with any default) is a genuine segment of a nonempty
list. -/
theorem getLastD_mem : ∀ (L : List (List Char)) (d : List Char), L ≠ [] → L.getLastD d ∈ L
  | [], _, h => absurd rfl h
  | [p], d, _ => by rw [List.getLastD_cons, List.getLastD_nil]; exact List.mem_cons_self p []
  | p :: q :: L, d, _ => by
    rw [List.getLastD_cons]
    exact List.mem_cons_of_mem p (getLastD_mem (q :: L) p (by simp))

/-- When the collapse branch fires, the result has exactly one dot; otherwise
the input had at most one dot already. -/
theorem collapseDots_count (t : List Char) : (collapseDots t).count '.' ≤ 1 := by
  unfold collapseDots
  by_cases h : (splitOnChar '.' t).length > 2
  · have hA : '.' ∉ ((splitOnChar '.' t).dropLast).flatten := by
      intro hmem
      rcases List.mem_flatten.mp hmem with ⟨p, hp, hx⟩
      have hp' : p ∈ splitOnChar '.' t := (List.dropLast_sublist _).subset hp
      exact (mem_splitOnChar '.' t p hp' '.' hx).2 rfl
    have hB : '.' ∉ (splitOnChar '.' t).getLastD [] := by
      intro hmem
      have hp' := getLastD_mem (splitOnChar '.' t) [] (splitOnChar_ne_nil '.' t)
      exact (mem_splitOnChar '.' t _ hp' '.' hmem).2 rfl
    rw [if_pos h, List.count_append, List.count_cons,
      List.count_eq_zero.mpr hA, List.count_eq_zero.mpr hB]
    simp
  · rw [if_neg h]
    have := splitOnChar_length '.' t
    omega

/-- If the input has at most one dot, the collapse step is the identity. -/
theorem collapseDots_eq_self {t : List Char} (h : t.count '.' ≤ 1) : collapseDots t = t := by
  unfold collapseDots
  rw [if_neg]
  rw [splitOnChar_length '.' t]
  omega

/-- Characters of `collapseDots t` come from `t` or are a dot. -/
theorem mem_collapseDots {x : Char} {t : List Char} (h : x ∈ collapseDots t) :
    x ∈ t ∨ x = '.' := by
  unfold collapseDots at h
  by_cases hl : (splitOnChar '.' t).length > 2
  · rw [if_pos hl] at h
    rcases List.mem_append.mp h with h | h
    · rcases List.mem_flatten.mp h with ⟨p, hp, hx⟩
      have hp' : p ∈ splitOnChar '.' t := (List.dropLast_sublist _).subset hp
      exact Or.inl (mem_splitOnChar '.' t p hp' x hx).1
    · rcases List.mem_cons.mp h with h | h
      · exact Or.inr h
      · have hp' := getLastD_mem (splitOnChar '.' t) [] (splitOnChar_ne_nil '.' t)
        exact Or.inl (mem_splitOnChar '.' t _ hp' x h).1
  · rw [if_neg hl] at h
    exact Or.inl h

/-- Characters of the separator-resolution step come from the input or are a
dot. -/
theorem mem_normBranch {x : Char} {t : List Char} (h : x ∈ normBranch t) :
    x ∈ t ∨ x = '.' := by
  unfold normBranch at h
  by_cases hb : '.' ∈ t ∧ ',' ∈ t
  · rw [if_pos hb] at h
    rcases mem_replaceLast h with h | h
    · exact Or.inl (List.mem_of_mem_filter h)
    · exact Or.inr h
  · rw [if_neg hb] at h
    rcases mem_collapseDots h with h | h
    · rcases List.mem_map.mp h with ⟨z, hz, hzy⟩
      by_cases hzc : z = ','
      · rw [hzc, if_pos rfl] at hzy
        exact Or.inr hzy.symm
      · rw [if_neg hzc] at hzy
        exact Or.inl (hzy ▸ hz)
    · exact Or.inr h

/-- The zero-stripping step only removes characters. -/
theorem mem_stripZeros {x : Char} {t2 : List Char} (h : x ∈ stripZeros t2) : x ∈ t2 := by
  unfold stripZeros at h
  split at h
  · exact (List.dropWhile_sublist _).subset h
  · exact h

/-- Every character of a normalized token is a digit, a dot or a comma. -/
theorem chars_normalize {x : Char} {s : List Char} (h : x ∈ normalizeNumberToken s) :
    isKeep x = true := by
  unfold normalizeNumberToken at h
  split at h
  · simp at h
  · rcases mem_normBranch (mem_stripZeros h) with h2 | h2
    · exact List.of_mem_filter h2
    · rw [h2]; decide

/-- A list that does not start with `'0'` never matches `/^0+\d/`. -/
theorem szd_cons_ne {c : Char} {cs : List Char} (hc : ¬c = '0') :
    startsZeroDigit (c :: cs) = false := by
  cases cs with
  | nil => rfl
  | cons d ds => simp [startsZeroDigit, hc]

/-- `dropWhile (· = '0')` never leaves a leading zero. -/
theorem szd_dropZeros (l : List Char) :
    startsZeroDigit (l.dropWhile (fun x => x = '0')) = false := by
  induction l with
  | nil => rfl
  | cons c cs ih =>
    rw [List.dropWhile_cons]
    by_cases hc : c = '0'
    · simpa [hc] using ih
    · simp only [hc, decide_False, Bool.false_eq_true, if_false]
      exact szd_cons_ne hc

/-- A string matching `/^0\./` does not match `/^0+\d/`. -/
theorem szdot_szd {l : List Char} (h : startsZeroDot l = true) :
    startsZeroDigit l = false := by
  cases l with
  | nil => simp [startsZeroDot] at h
  | cons c0 rest =>
    cases rest with
    | nil => simp [startsZeroDot] at h
    | cons c1 rest2 =>
      simp only [startsZeroDot, Bool.and_eq_true, decide_eq_true_eq] at h
      obtain ⟨h1, h2⟩ := h
      subst h1
      subst h2
      rfl

/-- The zero-stripping step never returns a string matching `/^0+\d/`. -/
theorem szd_stripZeros (t2 : List Char) : startsZeroDigit (stripZeros t2) = false := by
  unfold stripZeros
  cases hszd : startsZeroDigit t2 with
  | false => simp [hszd]
  | true =>
    cases hdot : startsZeroDot t2 with
    | false =>
      rw [if_pos (by simp [hszd, hdot])]
      exact szd_dropZeros t2
    | true =>
      have := szdot_szd hdot
      rw [this] at hszd
      exact absurd hszd (by simp)

/-- The normalizer never returns a string matching `/^0+\d/`. -/
theorem szd_normalize (s : List Char) :
    startsZeroDigit (normalizeNumberToken s) = false := by
  unfold normalizeNumberToken
  split
  · rfl
  · exact szd_stripZeros _


/-! ### Claim theorems: normalizer values and extraction example -/

/-- Claim C4 (counterexample): `".."` does not normalize to the empty
string — the single-separator branch collapses `".."` to `"."`. -/
theorem C4_cex : normalizeNumberToken "..".toList ≠ "".toList := by decide

/-- Claim C4 (amended): the four numeric examples normalize as claimed, and
`".."` normalizes to `"."`, a remnant with no digits that the extraction
loop then discards because it parses as no finite number. -/
theorem C4_values :
    normalizeNumberToken "1.234,56".toList = "1234.56".toList ∧
    normalizeNumberToken "1,234.56".toList = "1234.56".toList ∧
    normalizeNumberToken "3,49".toList = "3.49".toList ∧
    normalizeNumberToken "0,99".toList = "0.99".toList ∧
    normalizeNumberToken "..".toList = ".".toList ∧
    candOfTok "..".toList = none := by decide

/-- Claim C5 (counterexample): `"1.2,3.4"` contains both separator types
with the decimal separator occurring twice; it normalizes to the non-empty
string `"1.23.4"`, which contains two dots — not a canonical
single-dot form. -/
theorem C5_cex :
    normalizeNumberToken "1.2,3.4".toList = "1.23.4".toList ∧
    normalizeNumberToken "1.2,3.4".toList ≠ [] ∧
    ¬(normalizeNumberToken "1.2,3.4".toList).count '.' ≤ 1 := by decide

/-- Claim C5 (amended): for every input whose stripped token does not
contain both a dot and a comma, a non-empty result of `normalizeNumberToken`
is canonical: it contains no comma and at most one `'.'`.  (When both
separator types occur, the thousands separator is removed but extra
occurrences of the decimal-separator type can survive.) -/
theorem C5_canonical (s : List Char)
    (hsep : ¬(('.' ∈ stripTok s) ∧ (',' ∈ stripTok s)))
    (_hne : normalizeNumberToken s ≠ []) :
    ',' ∉ normalizeNumberToken s ∧ (normalizeNumberToken s).count '.' ≤ 1 := by
  unfold normalizeNumberToken at *
  by_cases h0 : stripTok s = []
  · rw [if_pos h0]
    simp
  · rw [if_neg h0]
    have hmap : ',' ∉ (stripTok s).map (fun x => if x = ',' then '.' else x) := by
      intro hmem
      rcases List.mem_map.mp hmem with ⟨z, _, hzy⟩
      by_cases hzc : z = ','
      · rw [hzc, if_pos rfl] at hzy
        exact absurd hzy (by decide)
      · rw [if_neg hzc] at hzy
        exact hzc (hzy.symm ▸ rfl)
    have hbr : normBranch (stripTok s) =
        collapseDots ((stripTok s).map (fun x => if x = ',' then '.' else x)) := by
      unfold normBranch
      rw [if_neg hsep]
    constructor
    · intro hmem
      have h1 := mem_stripZeros hmem
      rw [hbr] at h1
      rcases mem_collapseDots h1 with h1 | h1
      · exact hmap h1
      · exact absurd h1 (by decide)
    · have hcc : (collapseDots ((stripTok s).map (fun x => if x = ',' then '.' else x))).count '.' ≤ 1 :=
        collapseDots_count _
      rw [hbr]
      unfold stripZeros
      split
      · calc (List.dropWhile (fun x => x = '0')
              (collapseDots ((stripTok s).map (fun x => if x = ',' then '.' else x)))).count '.'
            ≤ (collapseDots ((stripTok s).map (fun x => if x = ',' then '.' else x))).count '.' :=
              (List.dropWhile_sublist _).count_le '.'
          _ ≤ 1 := hcc
      · exact hcc

/-- Witness for `C5_canonical` at the token `"3.49"`. -/
theorem C5_witness :
    ',' ∉ normalizeNumberToken "3.49".toList ∧
    (normalizeNumberToken "3.49".toList).count '.' ≤ 1 :=
  C5_canonical "3.49".toList (by decide) (by decide)

/-- Claim C2 (counterexample): for `s = "1,2.3,4"` the normalizer returns
the non-empty string `"1,23.4"`, but normalizing again gives `"123.4"`, so
normalization is not idempotent on its own output. -/
theorem C2_cex :
    normalizeNumberToken "1,2.3,4".toList ≠ [] ∧
    normalizeNumberToken (normalizeNumberToken "1,2.3,4".toList) ≠
      normalizeNumberToken "1,2.3,4".toList := by decide

/-- Claim C2 (amended): normalization is idempotent on every token whose
normalized form is canonical — non-empty, comma-free and with at most one
dot.  (This covers every token that does not mix both separator types with
a repeated decimal separator; the counterexample shows the pathological
mixed tokens escape it.) -/
theorem C2_idempotent_canonical (s : List Char)
    (hne : normalizeNumberToken s ≠ [])
    (hc : ',' ∉ normalizeNumberToken s)
    (hd : (normalizeNumberToken s).count '.' ≤ 1) :
    normalizeNumberToken (normalizeNumberToken s) = normalizeNumberToken s := by
  have hstrip : stripTok (normalizeNumberToken s) = normalizeNumberToken s :=
    List.filter_eq_self.mpr (fun a ha => chars_normalize ha)
  have hszd : startsZeroDigit (normalizeNumberToken s) = false := szd_normalize s
  have hmap : (normalizeNumberToken s).map (fun x => if x = ',' then '.' else x) =
      normalizeNumberToken s :=
    map_noop _ (fun a ha => by
      have hnc : ¬a = ',' := fun hq => hc (hq ▸ ha)
      rw [if_neg hnc])
  have hbr : normBranch (normalizeNumberToken s) = normalizeNumberToken s := by
    unfold normBranch
    rw [if_neg (fun hb => hc hb.2), hmap, collapseDots_eq_self hd]
  conv_lhs => rw [normalizeNumberToken]
  rw [hstrip, if_neg hne, hbr]
  unfold stripZeros
  rw [hszd]
  simp

/-- Witness for `C2_idempotent_canonical` at the token `"3,49"`. -/
theorem C2_witness :
    normalizeNumberToken (normalizeNumberToken "3,49".toList) =
      normalizeNumberToken "3,49".toList :=
  C2_idempotent_canonical "3,49".toList (by decide) (by decide) (by decide)

/-- Claim C8: on `"Цена 3.49 лв. стар 12,00"` extraction yields exactly the
candidates 12.00 (normalized `"12.00"`, score 4.5) and 3.49 (normalized
`"3.49"`, score 4.4); the scoring formula places 12.00 first. -/
theorem C8_extract_example :
    extractAmounts "Цена 3.49 лв. стар 12,00".toList =
      [⟨12, "12.00".toList, 9 / 2⟩, ⟨349 / 100, "3.49".toList, 22 / 5⟩] := by
  with_unfolding_all decide

/-! ### Invariants of the candidate extractor -/

/-- A candidate produced by the per-token pipeline passed the open-interval
range filter. -/
theorem candOfTok_range {tok : List Char} {c : Cand} (h : candOfTok tok = some c) :
    0 < c.value ∧ c.value < 100000 := by
  unfold candOfTok at h
  split at h
  · exact absurd h (by simp)
  · split at h
    · exact absurd h (by simp)
    · rename_i val heq
      split at h
      · exact absurd h (by simp)
      · rename_i hrange
        push_neg at hrange
        cases h
        exact ⟨lt_of_not_le (fun hle => hrange.1.not_lt (lt_of_le_of_ne hle (fun hv => by simp [hv] at hrange))), hrange.2⟩

/-- Unfolding equation: a token the pipeline rejects adds nothing. -/
theorem buildLoop_cons_none {tok : List Char} {toks : List (List Char)} {seen : List Int}
    (h : candOfTok tok = none) :
    buildLoop (tok :: toks) seen = buildLoop toks seen := by
  simp only [buildLoop, h]

/-- Unfolding equation: a candidate whose key was already seen is dropped. -/
theorem buildLoop_cons_skip {tok : List Char} {toks : List (List Char)} {seen : List Int}
    {d : Cand} (h : candOfTok tok = some d) (hs : keyOf d.value ∈ seen) :
    buildLoop (tok :: toks) seen = buildLoop toks seen := by
  simp only [buildLoop, h, if_pos hs]

/-- Unfolding equation: a candidate with a fresh key is kept and its key
recorded. -/
theorem buildLoop_cons_keep {tok : List Char} {toks : List (List Char)} {seen : List Int}
    {d : Cand} (h : candOfTok tok = some d) (hs : keyOf d.value ∉ seen) :
    buildLoop (tok :: toks) seen = d :: buildLoop toks (keyOf d.value :: seen) := by
  simp only [buildLoop, h, if_neg hs]

/-- Every candidate surviving the loop comes from some token. -/
theorem mem_buildLoop {toks : List (List Char)} {seen : List Int} {c : Cand}
    (h : c ∈ buildLoop toks seen) : ∃ tok ∈ toks, candOfTok tok = some c := by
  induction toks generalizing seen with
  | nil => simp [buildLoop] at h
  | cons tok toks ih =>
    cases hct : candOfTok tok with
    | none =>
      rw [buildLoop_cons_none hct] at h
      rcases ih h with ⟨t, ht, hc⟩
      exact ⟨t, List.mem_cons_of_mem tok ht, hc⟩
    | some d =>
      by_cases hseen : keyOf d.value ∈ seen
      · rw [buildLoop_cons_skip hct hseen] at h
        rcases ih h with ⟨t, ht, hc⟩
        exact ⟨t, List.mem_cons_of_mem tok ht, hc⟩
      · rw [buildLoop_cons_keep hct hseen] at h
        rcases List.mem_cons.mp h with h | h
        · exact ⟨tok, List.mem_cons_self tok toks, h ▸ hct⟩
        · rcases ih h with ⟨t, ht, hc⟩
          exact ⟨t, List.mem_cons_of_mem tok ht, hc⟩

/-- The loop never emits a key in `seen` and never emits the same
two-decimal key twice. -/
theorem buildLoop_keys (toks : List (List Char)) (seen : List Int) :
    (buildLoop toks seen).Pairwise (fun a b => keyOf a.value ≠ keyOf b.value) ∧
    ∀ c ∈ buildLoop toks seen, keyOf c.value ∉ seen := by
  induction toks generalizing seen with
  | nil => simp [buildLoop]
  | cons tok toks ih =>
    cases hct : candOfTok tok with
    | none =>
      rw [buildLoop_cons_none hct]
      exact ih seen
    | some d =>
      by_cases hseen : keyOf d.value ∈ seen
      · rw [buildLoop_cons_skip hct hseen]
        exact ih seen
      · rw [buildLoop_cons_keep hct hseen]
        obtain ⟨ih1, ih2⟩ := ih (keyOf d.value :: seen)
        refine ⟨List.Pairwise.cons ?_ ih1, ?_⟩
        · intro b hb' hkey
          refine (ih2 b hb') ?_
          rw [← hkey]
          exact List.mem_cons_self _ _
        · intro c hc
          rcases List.mem_cons.mp hc with hc | hc
          · rw [hc]
            exact hseen
          · exact fun hmem => (ih2 c hc) (List.mem_cons_of_mem _ hmem)

/-- First-seen-wins: every candidate the loop keeps is exactly the first
valid candidate carrying its two-decimal key. -/
theorem buildLoop_first (toks : List (List Char)) (seen : List Int) :
    ∀ c ∈ buildLoop toks seen, keyOf c.value ∉ seen ∧
      (validCands toks).find? (fun d => keyOf d.value == keyOf c.value) = some c := by
  induction toks generalizing seen with
  | nil => simp [buildLoop]
  | cons tok toks ih =>
    intro c hc
    cases hct : candOfTok tok with
    | none =>
      rw [buildLoop_cons_none hct] at hc
      have hv : validCands (tok :: toks) = validCands toks := by
        unfold validCands
        rw [List.filterMap_cons_none hct]
      rw [hv]
      exact ih seen c hc
    | some d =>
      have hv : validCands (tok :: toks) = d :: validCands toks := by
        unfold validCands
        rw [List.filterMap_cons_some hct]
      rw [hv]
      by_cases hseen : keyOf d.value ∈ seen
      · rw [buildLoop_cons_skip hct hseen] at hc
        obtain ⟨h1, h2⟩ := ih seen c hc
        have hkne : ¬(keyOf d.value == keyOf c.value) = true := by
          simp only [beq_iff_eq]
          intro hk
          exact h1 (hk ▸ hseen)
        have hbf : (keyOf d.value == keyOf c.value) = false := by simpa using hkne
        rw [List.find?_cons, hbf]
        exact ⟨h1, h2⟩
      · rw [buildLoop_cons_keep hct hseen] at hc
        rcases List.mem_cons.mp hc with hc | hc
        · subst hc
          exact ⟨hseen, List.find?_cons_of_pos _ (by simp)⟩
        · obtain ⟨h1, h2⟩ := ih (keyOf d.value :: seen) c hc
          have hkne : ¬(keyOf d.value == keyOf c.value) = true := by
            simp only [beq_iff_eq]
            intro hk
            refine h1 ?_
            rw [← hk]
            exact List.mem_cons_self _ _
          have hbf : (keyOf d.value == keyOf c.value) = false := by simpa using hkne
          rw [List.find?_cons, hbf]
          exact ⟨fun hmem => h1 (List.mem_cons_of_mem _ hmem), h2⟩

/-- Claim C3: for every input text the extracted candidate list has values
strictly inside `(0, 100000)`; no two entries share a two-decimal-rounded
value; it has at most 8 entries; it is sorted by non-increasing score with
ties broken by non-increasing value; and each kept entry is the first valid
candidate bearing its key (later duplicates are dropped, not merged). -/
theorem C3_extract_invariants (text : List Char) :
    (∀ c ∈ extractAmounts text, 0 < c.value ∧ c.value < 100000) ∧
    (extractAmounts text).Pairwise (fun a b => keyOf a.value ≠ keyOf b.value) ∧
    (extractAmounts text).length ≤ 8 ∧
    (extractAmounts text).Pairwise rle ∧
    (∀ c ∈ extractAmounts text,
      (validCands (findTokens text)).find? (fun d => keyOf d.value == keyOf c.value) = some c) := by
  have hperm : List.Perm (List.insertionSort rle (buildLoop (findTokens text) []))
      (buildLoop (findTokens text) []) := List.perm_insertionSort rle _
  have hsub : List.Sublist (extractAmounts text)
      (List.insertionSort rle (buildLoop (findTokens text) [])) :=
    List.take_sublist 8 _
  have hmem : ∀ c ∈ extractAmounts text, c ∈ buildLoop (findTokens text) [] :=
    fun c hc => hperm.mem_iff.mp (hsub.subset hc)
  refine ⟨?_, ?_, ?_, ?_, ?_⟩
  · intro c hc
    rcases mem_buildLoop (hmem c hc) with ⟨tok, _, h⟩
    exact candOfTok_range h
  · have h1 := (buildLoop_keys (findTokens text) []).1
    have h2 := (hperm.pairwise_iff (fun h => Ne.symm h)).mpr h1
    exact List.Pairwise.sublist hsub h2
  · exact List.length_take_le 8 _
  · exact List.Pairwise.sublist hsub (List.sorted_insertionSort rle _)
  · intro c hc
    exact (buildLoop_first (findTokens text) [] c (hmem c hc)).2

/-- Witness for `C3_extract_invariants`: the single candidate extracted from
`"7,5"` has value 7.5, which lies strictly inside the range. -/
theorem C3_witness : 0 < (15 / 2 : ℚ) ∧ (15 / 2 : ℚ) < 100000 :=
  (C3_extract_invariants "7,5".toList).1 ⟨15 / 2, "7.5".toList, 43 / 10⟩
    (by with_unfolding_all decide)

end Euro

